import Mathlib

/-!
Verification of the structural-biology helper functions in
`helix/analysis/structure/utils.py`.

The Python code delegates to Biopython: a `Structure` is a hierarchy
model -> chain -> residue -> atom, atoms carry 3D coordinates, and the
spatial query `NeighborSearch.search(center, radius)` returns every atom
of the structure whose Euclidean distance from `center` is at most
`radius` (a closed ball).  We embed the hierarchy with exact rational
coordinates; the closed-ball test `dist <= r` is expressed without a
square root as `0 <= r` together with `distSq <= r ^ 2`, which is
equivalent over the reals.

Residue identity: Python deduplicates the parents of the found atoms by
object identity.  In the embedding a residue of a structure is
identified by its position, a triple `(model index, chain index,
residue index)`, which plays the role of the object reference.
-/

structure Vec3 where
  x : ℚ
  y : ℚ
  z : ℚ
deriving DecidableEq, Repr

/-- An atom carries a 3D coordinate (`atom.coord` in Biopython). -/
structure Atom where
  coord : Vec3
deriving DecidableEq, Repr

/-- A residue or ligand: a sequence identifier and its atoms. -/
structure Residue where
  resId : Int
  atoms : List Atom
deriving DecidableEq, Repr

/-- A chain: an identifier and its residues. -/
structure Chain where
  chainId : String
  residues : List Residue
deriving DecidableEq, Repr

/-- A model: an ordered collection of chains. -/
structure Model where
  chains : List Chain
deriving DecidableEq, Repr

/-- A Biopython `Structure`: an ordered collection of models. -/
structure PDBStructure where
  models : List Model
deriving DecidableEq, Repr

/-- The error kinds the functions can surface.  `zeroDivisionError` is
the Python `ZeroDivisionError` raised by the centroid division;
`indexConstructionError` is modelled from the spec: a structure with no
atoms makes the spatial-index construction fail with a generic error;
`invalidTargetError` is the distinct error kind named by the spec for an
atomless target; `keyNotFoundError` is the Python `KeyError` of the
hierarchy lookup; `parseError` and `fetchError` cover malformed text and
non-success HTTP responses. -/
inductive PyError where
  | zeroDivisionError
  | indexConstructionError
  | invalidTargetError
  | keyNotFoundError
  | parseError
  | fetchError (status : Nat)
deriving DecidableEq, Repr

/-- Position of a residue inside a structure: model index, chain index,
residue index.  This is the embedding of a residue object reference. -/
abbrev ResKey := Nat × Nat × Nat

/-- Pair every element of a list with its index. -/
def withIdx {α : Type} : List α → List (Nat × α)
  | [] => []
  | a :: as => (0, a) :: (withIdx as).map (fun p => (p.1 + 1, p.2))

/-- The residue stored at a given position of the structure. -/
def residueAt (s : PDBStructure) (k : ResKey) : Option Residue :=
  s.models[k.1]?.bind fun m =>
    m.chains[k.2.1]?.bind fun c => c.residues[k.2.2]?

/-- All atoms of the structure (`structure.get_atoms()`), each paired
with the position of its parent residue (`atom.get_parent()`). -/
def PDBStructure.atomEntries (s : PDBStructure) : List (ResKey × Atom) :=
  (withIdx s.models).flatMap fun mp =>
    (withIdx mp.2.chains).flatMap fun cp =>
      (withIdx cp.2.residues).flatMap fun rp =>
        rp.2.atoms.map fun a => ((mp.1, cp.1, rp.1), a)

def Vec3.add (a b : Vec3) : Vec3 := ⟨a.x + b.x, a.y + b.y, a.z + b.z⟩

def Vec3.divQ (v : Vec3) (q : ℚ) : Vec3 := ⟨v.x / q, v.y / q, v.z / q⟩

/-- Componentwise sum of a list of vectors, starting from `0` exactly as
the Python builtin `sum` does. -/
def vecSum (l : List Vec3) : Vec3 := l.foldl Vec3.add ⟨0, 0, 0⟩

/-- `sum(atom.coord for atom in target_atoms) / len(target_atoms)`. -/
def centroidOf (atoms : List Atom) : Vec3 :=
  Vec3.divQ (vecSum (atoms.map Atom.coord)) (atoms.length : ℚ)

/-- Squared Euclidean distance between two points. -/
def distSq (a b : Vec3) : ℚ :=
  (a.x - b.x) ^ 2 + (a.y - b.y) ^ 2 + (a.z - b.z) ^ 2

/-- Embedding of `get_residues_within_distance(structure, target_residue,
distance)`:

1. collect all atoms of the structure and build the spatial index (with
   no atoms this construction itself fails, before the centroid is
   computed);
2. compute the centroid of the target atoms; with zero target atoms the
   division `sum(...) / len(...)` is `0 / 0` on Python ints and raises
   `ZeroDivisionError`;
3. keep the atoms lying in the closed ball of the given radius around
   the centroid (`0 <= d` and `distSq <= d ^ 2` is `dist <= d` over the
   reals, in the same coordinate frame as the input, no unit
   conversion);
4. map each atom to its parent residue and deduplicate. -/
def get_residues_within_distance (s : PDBStructure) (target_residue : Residue)
    (distance : ℚ) : Except PyError (List ResKey) :=
  if s.atomEntries.isEmpty then .error .indexConstructionError
  else if target_residue.atoms.isEmpty then .error .zeroDivisionError
  else
    let target_center := centroidOf target_residue.atoms
    let nearby_atoms := s.atomEntries.filter fun e =>
      decide (0 ≤ distance ∧ distSq e.2.coord target_center ≤ distance ^ 2)
    .ok ((nearby_atoms.map Prod.fst).dedup)

/-- Embedding of `get_residue_by_position(structure, chain_id,
residue_id)`, that is `structure[0][chain_id][residue_id]`: each missing
key raises the Python `KeyError`.  Only the first model is consulted. -/
def get_residue_by_position (s : PDBStructure) (chain_id : String)
    (residue_id : Int) : Except PyError Residue :=
  match s.models[0]? with
  | none => .error .keyNotFoundError
  | some m =>
    match m.chains.find? (fun c => c.chainId == chain_id) with
    | none => .error .keyNotFoundError
    | some c =>
      match c.residues.find? (fun r => r.resId == residue_id) with
      | none => .error .keyNotFoundError
      | some r => .ok r

/-- Whether some chain of the model carries the chain id and contains a
residue with the given residue id. -/
def Model.hasResidue (m : Model) (c : String) (i : Int) : Bool :=
  m.chains.any fun ch => ch.chainId == c && ch.residues.any (fun r => r.resId == i)

/-- Whether the pair (chain id, residue id) occurs anywhere in the
structure, in any model. -/
def PDBStructure.hasResidue (s : PDBStructure) (c : String) (i : Int) : Bool :=
  s.models.any fun m => m.hasResidue c i

section ProximityLemmas

theorem mem_withIdx {α : Type} {l : List α} {i : Nat} {a : α} :
    (i, a) ∈ withIdx l ↔ l[i]? = some a := by
  induction l generalizing i with
  | nil => simp [withIdx]
  | cons b bs ih =>
    cases i with
    | zero =>
      simp only [withIdx, List.mem_cons, List.mem_map, List.getElem?_cons,
        if_pos rfl, Prod.mk.injEq]
      constructor
      · rintro (⟨-, rfl⟩ | ⟨p, -, hj, -⟩)
        · rfl
        · omega
      · intro h
        exact Or.inl ⟨trivial, (Option.some.inj h).symm⟩
    | succ n =>
      simp only [withIdx, List.mem_cons, List.mem_map, List.getElem?_cons,
        Prod.mk.injEq]
      constructor
      · rintro (⟨h, -⟩ | ⟨⟨j, c⟩, hp, hj, rfl⟩)
        · omega
        · have hjn : j = n := by omega
          rw [if_neg (by omega)]
          simpa using ih.mp (hjn ▸ hp)
      · intro h
        rw [if_neg (by omega)] at h
        exact Or.inr ⟨(n, a), ih.mpr (by simpa using h), by omega, rfl⟩

theorem mem_atomEntries {s : PDBStructure} {k : ResKey} {a : Atom} :
    (k, a) ∈ s.atomEntries ↔ ∃ r, residueAt s k = some r ∧ a ∈ r.atoms := by
  obtain ⟨mi, ci, ri⟩ := k
  simp only [PDBStructure.atomEntries, List.mem_flatMap, List.mem_map,
    residueAt, Option.bind_eq_some]
  constructor
  · rintro ⟨⟨mi', m⟩, hmp, ⟨ci', c⟩, hcp, ⟨ri', r⟩, hrp, a', ha', heq⟩
    simp only [Prod.mk.injEq] at heq
    obtain ⟨⟨h1, h2, h3⟩, h4⟩ := heq
    subst h1; subst h2; subst h3; subst h4
    exact ⟨r, ⟨m, mem_withIdx.mp hmp, c, mem_withIdx.mp hcp, mem_withIdx.mp hrp⟩, ha'⟩
  · rintro ⟨r, ⟨m, hm, c, hc, hr⟩, ha⟩
    exact ⟨(mi, m), mem_withIdx.mpr hm, (ci, c), mem_withIdx.mpr hc,
      (ri, r), mem_withIdx.mpr hr, a, ha, rfl⟩

theorem distSq_self (v : Vec3) : distSq v v = 0 := by
  simp [distSq]

theorem get_eq_ok {s : PDBStructure} {t : Residue} {d : ℚ}
    (hs : s.atomEntries.isEmpty = false) (ht : t.atoms.isEmpty = false) :
    get_residues_within_distance s t d =
      .ok (((s.atomEntries.filter fun e =>
        decide (0 ≤ d ∧ distSq e.2.coord (centroidOf t.atoms) ≤ d ^ 2)).map
          Prod.fst).dedup) := by
  simp [get_residues_within_distance, hs, ht]

theorem get_ok_cases {s : PDBStructure} {t : Residue} {d : ℚ} {res : List ResKey}
    (h : get_residues_within_distance s t d = .ok res) :
    s.atomEntries.isEmpty = false ∧ t.atoms.isEmpty = false := by
  by_cases hs : s.atomEntries.isEmpty
  · rw [get_residues_within_distance, if_pos hs] at h; cases h
  by_cases ht : t.atoms.isEmpty
  · rw [get_residues_within_distance, if_neg hs, if_pos ht] at h; cases h
  exact ⟨by simpa using hs, by simpa using ht⟩

theorem mem_get_result {s : PDBStructure} {t : Residue} {d : ℚ} {res : List ResKey}
    (h : get_residues_within_distance s t d = .ok res) (k : ResKey) :
    k ∈ res ↔ ∃ r, residueAt s k = some r ∧
      ∃ a ∈ r.atoms, 0 ≤ d ∧ distSq a.coord (centroidOf t.atoms) ≤ d ^ 2 := by
  obtain ⟨hs, ht⟩ := get_ok_cases h
  rw [get_eq_ok hs ht] at h
  obtain rfl : res = _ := by cases h; rfl
  simp only [List.mem_dedup, List.mem_map, List.mem_filter]
  constructor
  · rintro ⟨⟨k', a⟩, ⟨hmem, hpred⟩, rfl⟩
    obtain ⟨r, hr, ha⟩ := mem_atomEntries.mp hmem
    exact ⟨r, hr, a, ha, by simpa using hpred⟩
  · rintro ⟨r, hr, a, ha, hpred⟩
    exact ⟨(k, a), ⟨mem_atomEntries.mpr ⟨r, hr, ha⟩, by simpa using hpred⟩, rfl⟩

theorem nodup_get_result {s : PDBStructure} {t : Residue} {d : ℚ} {res : List ResKey}
    (h : get_residues_within_distance s t d = .ok res) : res.Nodup := by
  obtain ⟨hs, ht⟩ := get_ok_cases h
  rw [get_eq_ok hs ht] at h
  obtain rfl : res = _ := by cases h; rfl
  exact List.nodup_dedup _

end ProximityLemmas

theorem centroid_single (a : Atom) : centroidOf [a] = a.coord := by
  obtain ⟨⟨x, y, z⟩⟩ := a
  simp [centroidOf, vecSum, Vec3.add, Vec3.divQ]

/-- Sample structure with a single atom, used to instantiate theorems. -/
def sampleAtom : Atom := ⟨⟨0, 0, 0⟩⟩

def sampleRes : Residue := ⟨1, [sampleAtom]⟩

def sampleStructure : PDBStructure := ⟨[⟨[⟨"A", [sampleRes]⟩]⟩]⟩

theorem sample_get_eval (d : ℚ) (hd : 0 ≤ d) :
    get_residues_within_distance sampleStructure sampleRes d = .ok [(0, 0, 0)] := by
  rw [get_eq_ok (show sampleStructure.atomEntries.isEmpty = false from rfl)
    (show sampleRes.atoms.isEmpty = false from rfl)]
  have he : sampleStructure.atomEntries = [((0, 0, 0), sampleAtom)] := rfl
  rw [he, List.filter_cons, if_pos ?pos]
  case pos =>
    rw [decide_eq_true_eq]
    refine ⟨hd, ?_⟩
    rw [show sampleRes.atoms = [sampleAtom] from rfl, centroid_single, distSq_self]
    positivity
  rfl

/-- C1 counterexample: on a structure with one atom and a target residue
with zero atoms, the query fails with the Python `ZeroDivisionError` of
`sum(...) / len(...)`, not with a distinct `InvalidTargetError`. -/
theorem C1_counterexample :
    get_residues_within_distance
      ⟨[⟨[⟨"A", [⟨1, [⟨⟨0, 0, 0⟩⟩]⟩]⟩]⟩]⟩ ⟨2, []⟩ 5 =
        .error .zeroDivisionError ∧
    PyError.zeroDivisionError ≠ PyError.invalidTargetError :=
  ⟨rfl, by decide⟩

/-- C1 (amended): for every structure with at least one atom and every
target residue with zero atoms, the proximity query raises the unguarded
`ZeroDivisionError` of the centroid division (an atomless structure
already fails earlier, at spatial-index construction), rather than a
distinct named `InvalidTargetError`. -/
theorem C1_zero_atom_division (s : PDBStructure) (t : Residue) (d : ℚ)
    (hs : s.atomEntries ≠ []) (ht : t.atoms = []) :
    get_residues_within_distance s t d = .error .zeroDivisionError := by
  rw [get_residues_within_distance,
    if_neg (by simp [List.isEmpty_eq_false.mpr hs]), if_pos (by simp [ht])]

theorem C1_zero_atom_division_witness :
    (⟨[⟨[⟨"A", [⟨1, [⟨⟨0, 0, 0⟩⟩]⟩]⟩]⟩]⟩ : PDBStructure).atomEntries ≠ [] ∧
    (⟨2, []⟩ : Residue).atoms = [] ∧
    get_residues_within_distance ⟨[⟨[⟨"A", [⟨1, [⟨⟨0, 0, 0⟩⟩]⟩]⟩]⟩]⟩ ⟨2, []⟩ 7 =
      .error .zeroDivisionError :=
  ⟨by decide, rfl,
    C1_zero_atom_division ⟨[⟨[⟨"A", [⟨1, [⟨⟨0, 0, 0⟩⟩]⟩]⟩]⟩]⟩ ⟨2, []⟩ 7
      (by decide) rfl⟩

/-- C2 counterexample: the residue at position (0,0,0) of this structure
has two atoms, at (0,0,0) and (2,0,0); its centroid is (1,0,0) and no
atom lies on it, so the query at radius 0 returns the empty set, which
does not contain the residue itself. -/
theorem C2_counterexample :
    residueAt ⟨[⟨[⟨"A", [⟨1, [⟨⟨0, 0, 0⟩⟩, ⟨⟨2, 0, 0⟩⟩]⟩]⟩]⟩]⟩ (0, 0, 0) =
      some ⟨1, [⟨⟨0, 0, 0⟩⟩, ⟨⟨2, 0, 0⟩⟩]⟩ ∧
    (⟨1, [⟨⟨0, 0, 0⟩⟩, ⟨⟨2, 0, 0⟩⟩]⟩ : Residue).atoms ≠ [] ∧
    get_residues_within_distance ⟨[⟨[⟨"A", [⟨1, [⟨⟨0, 0, 0⟩⟩, ⟨⟨2, 0, 0⟩⟩]⟩]⟩]⟩]⟩
      ⟨1, [⟨⟨0, 0, 0⟩⟩, ⟨⟨2, 0, 0⟩⟩]⟩ 0 = .ok [] := by
  refine ⟨rfl, by decide, ?_⟩
  rw [get_eq_ok (show (⟨[⟨[⟨"A", [⟨1, [⟨⟨0, 0, 0⟩⟩, ⟨⟨2, 0, 0⟩⟩]⟩]⟩]⟩]⟩ :
      PDBStructure).atomEntries.isEmpty = false from rfl)
    (show (⟨1, [⟨⟨0, 0, 0⟩⟩, ⟨⟨2, 0, 0⟩⟩]⟩ : Residue).atoms.isEmpty = false
      from rfl)]
  have hc : centroidOf (⟨1, [⟨⟨0, 0, 0⟩⟩, ⟨⟨2, 0, 0⟩⟩]⟩ : Residue).atoms =
      ⟨1, 0, 0⟩ := by
    simp [centroidOf, vecSum, Vec3.add, Vec3.divQ]
  rw [show (⟨[⟨[⟨"A", [⟨1, [⟨⟨0, 0, 0⟩⟩, ⟨⟨2, 0, 0⟩⟩]⟩]⟩]⟩]⟩ :
      PDBStructure).atomEntries =
    [((0, 0, 0), ⟨⟨0, 0, 0⟩⟩), ((0, 0, 0), ⟨⟨2, 0, 0⟩⟩)] from rfl, hc]
  rw [List.filter_cons, if_neg ?na, List.filter_cons, if_neg ?nb]
  case na =>
    rw [decide_eq_true_eq]
    rintro ⟨-, hle⟩
    rw [distSq] at hle
    norm_num at hle
  case nb =>
    rw [decide_eq_true_eq]
    rintro ⟨-, hle⟩
    rw [distSq] at hle
    norm_num at hle
  rfl

/-- C2 (amended): for any structure, any residue of it, and radius 0,
the result contains the residue itself provided one of its atoms lies
exactly on its centroid (in particular this holds for single-atom
residues); with atoms off the centroid the residue can be absent. -/
theorem C2_self_at_zero (s : PDBStructure) (t : Residue) (k : ResKey) (a : Atom)
    (hk : residueAt s k = some t) (ha : a ∈ t.atoms)
    (hc : a.coord = centroidOf t.atoms) :
    ∃ res, get_residues_within_distance s t 0 = .ok res ∧ k ∈ res := by
  have hmem : (k, a) ∈ s.atomEntries := mem_atomEntries.mpr ⟨t, hk, ha⟩
  have hs : s.atomEntries.isEmpty = false :=
    List.isEmpty_eq_false.mpr (List.ne_nil_of_mem hmem)
  have ht : t.atoms.isEmpty = false :=
    List.isEmpty_eq_false.mpr (List.ne_nil_of_mem ha)
  refine ⟨_, get_eq_ok hs ht, ?_⟩
  rw [mem_get_result (get_eq_ok hs ht)]
  exact ⟨t, hk, a, ha, le_refl 0, by rw [hc, distSq_self]; positivity⟩

theorem C2_self_at_zero_witness :
    ∃ res, get_residues_within_distance sampleStructure sampleRes 0 = .ok res ∧
      ((0, 0, 0) : ResKey) ∈ res :=
  C2_self_at_zero sampleStructure sampleRes (0, 0, 0) sampleAtom rfl
    (List.mem_singleton.mpr rfl) (centroid_single sampleAtom).symm

/-- C3: monotonicity in the radius — whenever the query succeeds at two
radii r1 < r2 on the same structure and target, every residue found at
radius r1 is also found at radius r2. -/
theorem C3_radius_monotone (s : PDBStructure) (t : Residue) (d₁ d₂ : ℚ)
    (res₁ res₂ : List ResKey) (hlt : d₁ < d₂)
    (h₁ : get_residues_within_distance s t d₁ = .ok res₁)
    (h₂ : get_residues_within_distance s t d₂ = .ok res₂) :
    res₁ ⊆ res₂ := by
  intro k hk
  rw [mem_get_result h₁] at hk
  rw [mem_get_result h₂]
  obtain ⟨r, hr, a, ha, hd, hdist⟩ := hk
  exact ⟨r, hr, a, ha, le_trans hd (le_of_lt hlt),
    le_trans hdist (pow_le_pow_left₀ hd (le_of_lt hlt) 2)⟩

theorem C3_radius_monotone_witness :
    ((1 : ℚ) < 2) ∧
    get_residues_within_distance sampleStructure sampleRes 1 = .ok [(0, 0, 0)] ∧
    get_residues_within_distance sampleStructure sampleRes 2 = .ok [(0, 0, 0)] ∧
    [((0, 0, 0) : ResKey)] ⊆ [((0, 0, 0) : ResKey)] :=
  ⟨by norm_num, sample_get_eval 1 (by norm_num), sample_get_eval 2 (by norm_num),
    C3_radius_monotone sampleStructure sampleRes 1 2 _ _ (by norm_num)
      (sample_get_eval 1 (by norm_num)) (sample_get_eval 2 (by norm_num))⟩

/-- C4: whenever the query succeeds, the returned residue positions are
pairwise distinct (deduplicated by residue identity), and a residue
position is returned exactly when it designates a residue present in the
structure one of whose atoms lies within the radius of the target
centroid, measured by Euclidean distance in the coordinates of the input
(`0 ≤ d ∧ distSq ≤ d ^ 2` is `dist ≤ d` over the reals; no unit
conversion is applied). -/
theorem C4_result_invariant (s : PDBStructure) (t : Residue) (d : ℚ)
    (res : List ResKey) (h : get_residues_within_distance s t d = .ok res) :
    res.Nodup ∧ ∀ k, k ∈ res ↔ ∃ r, residueAt s k = some r ∧
      ∃ a ∈ r.atoms, 0 ≤ d ∧ distSq a.coord (centroidOf t.atoms) ≤ d ^ 2 :=
  ⟨nodup_get_result h, fun k => mem_get_result h k⟩

theorem C4_result_invariant_witness :
    [((0, 0, 0) : ResKey)].Nodup ∧
    ∀ k, k ∈ [((0, 0, 0) : ResKey)] ↔ ∃ r, residueAt sampleStructure k = some r ∧
      ∃ a ∈ r.atoms, 0 ≤ (5 : ℚ) ∧
        distSq a.coord (centroidOf sampleRes.atoms) ≤ 5 ^ 2 :=
  C4_result_invariant sampleStructure sampleRes 5 [(0, 0, 0)]
    (sample_get_eval 5 (by norm_num))

/-- C10: a target residue of the structure with exactly one atom has its
centroid on that atom, so for every radius at least 0 the query succeeds
and its result contains the target residue itself. -/
theorem C10_single_atom_self (s : PDBStructure) (t : Residue) (k : ResKey)
    (a : Atom) (d : ℚ) (hk : residueAt s k = some t) (ht : t.atoms = [a])
    (hd : 0 ≤ d) :
    ∃ res, get_residues_within_distance s t d = .ok res ∧ k ∈ res := by
  have ha : a ∈ t.atoms := by rw [ht]; exact List.mem_singleton.mpr rfl
  have hmem : (k, a) ∈ s.atomEntries := mem_atomEntries.mpr ⟨t, hk, ha⟩
  have hs : s.atomEntries.isEmpty = false :=
    List.isEmpty_eq_false.mpr (List.ne_nil_of_mem hmem)
  have hta : t.atoms.isEmpty = false :=
    List.isEmpty_eq_false.mpr (List.ne_nil_of_mem ha)
  refine ⟨_, get_eq_ok hs hta, ?_⟩
  rw [mem_get_result (get_eq_ok hs hta)]
  refine ⟨t, hk, a, ha, hd, ?_⟩
  rw [ht, centroid_single, distSq_self]
  positivity

theorem C10_single_atom_self_witness :
    ∃ res, get_residues_within_distance sampleStructure sampleRes 3 = .ok res ∧
      ((0, 0, 0) : ResKey) ∈ res :=
  C10_single_atom_self sampleStructure sampleRes (0, 0, 0) sampleAtom 3 rfl rfl
    (by norm_num)

/-- C6 counterexample: the chain "A" with residue 1 exists in the
structure (in its second model), yet the lookup fails, because only the
first model is consulted. -/
theorem C6_counterexample :
    PDBStructure.hasResidue ⟨[⟨[]⟩, ⟨[⟨"A", [⟨1, [⟨⟨0, 0, 0⟩⟩]⟩]⟩]⟩]⟩ "A" 1 =
      true ∧
    get_residue_by_position ⟨[⟨[]⟩, ⟨[⟨"A", [⟨1, [⟨⟨0, 0, 0⟩⟩]⟩]⟩]⟩]⟩ "A" 1 =
      .error .keyNotFoundError :=
  ⟨rfl, rfl⟩

/-- C6 (amended): the lookup goes through the FIRST model of the
structure.  A successful lookup returns exactly the first residue with
the requested id of the first chain with the requested id in the first
model, and its identifier fields equal the request; when the first model
is absent or the chain or residue id is not found there, the lookup
fails with the key-not-found error. -/
theorem C6_lookup_exact (s : PDBStructure) (c : String) (i : Int) :
    (∀ r, get_residue_by_position s c i = .ok r →
      r.resId = i ∧ ∃ m ch, s.models[0]? = some m ∧
        m.chains.find? (fun x => x.chainId == c) = some ch ∧ ch.chainId = c ∧
        ch.residues.find? (fun x => x.resId == i) = some r) ∧
    (∀ m ch r, s.models[0]? = some m →
      m.chains.find? (fun x => x.chainId == c) = some ch →
      ch.residues.find? (fun x => x.resId == i) = some r →
      get_residue_by_position s c i = .ok r) ∧
    ((∀ r, get_residue_by_position s c i ≠ .ok r) →
      get_residue_by_position s c i = .error .keyNotFoundError) := by
  refine ⟨?_, ?_, ?_⟩
  · intro r h
    unfold get_residue_by_position at h
    split at h
    · cases h
    next m hm =>
      split at h
      · cases h
      next ch hch =>
        split at h
        · cases h
        next r' hr =>
          obtain rfl : r' = r := by cases h; rfl
          exact ⟨by simpa using List.find?_some hr, m, ch, hm, hch,
            by simpa using List.find?_some hch, hr⟩
  · intro m ch r hm hch hr
    simp [get_residue_by_position, hm, hch, hr]
  · intro hne
    unfold get_residue_by_position
    split
    · rfl
    next m hm =>
      split
      · rfl
      next ch hch =>
        split
        · rfl
        next r hr =>
          exact absurd (by simp [get_residue_by_position, hm, hch, hr]) (hne r)

theorem C6_lookup_exact_witness :
    get_residue_by_position ⟨[⟨[⟨"A", [⟨2, [⟨⟨1, 1, 1⟩⟩]⟩]⟩]⟩]⟩ "A" 2 =
      .ok ⟨2, [⟨⟨1, 1, 1⟩⟩]⟩ :=
  (C6_lookup_exact ⟨[⟨[⟨"A", [⟨2, [⟨⟨1, 1, 1⟩⟩]⟩]⟩]⟩]⟩ "A" 2).2.1
    ⟨[⟨"A", [⟨2, [⟨⟨1, 1, 1⟩⟩]⟩]⟩]⟩ ⟨"A", [⟨2, [⟨⟨1, 1, 1⟩⟩]⟩]⟩
    ⟨2, [⟨⟨1, 1, 1⟩⟩]⟩ rfl rfl rfl

/-- C9: the lookup consults only the first model.  If the first model of
the structure does not contain the (chain, residue) pair, the lookup
fails with the key-not-found error — even when the pair does exist in a
later model of the structure — and it agrees with the lookup on the
structure truncated to its first model alone. -/
theorem C9_first_model_only (s : PDBStructure) (c : String) (i : Int)
    (m0 : Model) (rest : List Model) (hm : s.models = m0 :: rest)
    (h0 : m0.hasResidue c i = false) (_hin : s.hasResidue c i = true) :
    get_residue_by_position s c i = .error .keyNotFoundError ∧
    get_residue_by_position s c i = get_residue_by_position ⟨[m0]⟩ c i := by
  unfold Model.hasResidue at h0
  rcases hch : m0.chains.find? (fun x => x.chainId == c) with _ | ch
  · constructor
    · simp [get_residue_by_position, hm, hch]
    · simp [get_residue_by_position, hm, hch]
  · have hchain := List.find?_some hch
    have hmem := List.mem_of_find?_eq_some hch
    have hchspec := List.any_eq_false.mp h0 ch hmem
    have hresany : ch.residues.any (fun r => r.resId == i) = false := by
      cases hra : ch.residues.any (fun r => r.resId == i) with
      | false => rfl
      | true => exact absurd (by rw [hchain, hra]; rfl) hchspec
    have hr : ch.residues.find? (fun r => r.resId == i) = none := by
      rw [List.find?_eq_none]
      exact fun x hx => List.any_eq_false.mp hresany x hx
    constructor
    · simp [get_residue_by_position, hm, hch, hr]
    · simp [get_residue_by_position, hm, hch, hr]

theorem C9_first_model_only_witness :
    get_residue_by_position ⟨[⟨[]⟩, ⟨[⟨"B", [⟨7, [⟨⟨0, 0, 0⟩⟩]⟩]⟩]⟩]⟩ "B" 7 =
      .error .keyNotFoundError ∧
    get_residue_by_position ⟨[⟨[]⟩, ⟨[⟨"B", [⟨7, [⟨⟨0, 0, 0⟩⟩]⟩]⟩]⟩]⟩ "B" 7 =
      get_residue_by_position ⟨[⟨[]⟩]⟩ "B" 7 :=
  C9_first_model_only ⟨[⟨[]⟩, ⟨[⟨"B", [⟨7, [⟨⟨0, 0, 0⟩⟩]⟩]⟩]⟩]⟩ "B" 7
    ⟨[]⟩ [⟨[⟨"B", [⟨7, [⟨⟨0, 0, 0⟩⟩]⟩]⟩]⟩] rfl rfl rfl

/-!
Text format.  Modelled from the spec: parsing and serialization are
delegated to the external library (`PDBParser` / `PDBIO`), which is not
part of this repository; the spec describes the interface as the legacy
fixed-column PDB text format, with ATOM records carrying a chain
identifier (column 21), a residue sequence number (columns 22-25,
right-justified) and three coordinates (columns 30-53, fixed-point with
three decimals).  We model the text as its list of lines, a coordinate
as an exact integer number of thousandths, and the hierarchy grouping
exactly as record order dictates: consecutive records with the same
chain id form a chain, consecutive records with the same residue id
inside a chain form a residue.
-/

def digitChar (d : Nat) : Char := Char.ofNat (48 + d)

def isDigitChar (c : Char) : Bool :=
  decide (48 ≤ c.toNat) && decide (c.toNat ≤ 57)

def charDigit (c : Char) : Nat := c.toNat - 48

def chStep (acc : Nat) (c : Char) : Nat := acc * 10 + charDigit c

/-- Value of a most-significant-first digit string. -/
def charsToNat (cs : List Char) : Nat := cs.foldl chStep 0

/-- Decimal digits of `n`, most significant first; the fuel argument
bounds the recursion and any fuel at least `n` gives the digits. -/
def natToCharsCore : Nat → Nat → List Char
  | 0, _ => []
  | fuel + 1, n =>
    if n = 0 then []
    else natToCharsCore fuel (n / 10) ++ [digitChar (n % 10)]

def natToChars (n : Nat) : List Char :=
  if n = 0 then ['0'] else natToCharsCore n n

/-- Left-pad a list to the given width with the given character. -/
def padLeftC (w : Nat) (c : Char) (l : List Char) : List Char :=
  List.replicate (w - l.length) c ++ l

/-- Parse a right-justified decimal field: skip the space padding, then
require a nonempty all-digit tail. -/
def parsePadNat (cs : List Char) : Option Nat :=
  let t := cs.dropWhile (fun c => c == ' ')
  if t.isEmpty then none
  else if t.all isDigitChar then some (charsToNat t) else none

def parseSeq (cs : List Char) : Option Int :=
  (parsePadNat cs).map (fun n => Int.ofNat n)

def fmtSeq (i : Int) : List Char :=
  padLeftC 4 ' ' (if i < 0 then '-' :: natToChars i.natAbs else natToChars i.toNat)

/-- Parse an unsigned fixed-point number with exactly three decimals
into its value in thousandths: a nonempty all-digit integer part, a dot
in the fourth position from the end, three decimal digits. -/
def parseUnsignedCoord (t : List Char) : Option Nat :=
  if t.length < 5 then none
  else if (t.drop (t.length - 4)).head? = some '.' then
    if (t.take (t.length - 4)).isEmpty then none
    else if (t.take (t.length - 4)).all isDigitChar &&
        ((t.drop (t.length - 4)).tail).all isDigitChar then
      some (charsToNat (t.take (t.length - 4)) * 1000 +
        charsToNat ((t.drop (t.length - 4)).tail))
    else none
  else none

/-- Parse an 8-column coordinate field (value in thousandths): space
padding, an optional minus sign, then the unsigned fixed-point number. -/
def parseCoord (cs : List Char) : Option Int :=
  if (cs.dropWhile (fun c => c == ' ')).head? = some '-' then
    (parseUnsignedCoord ((cs.dropWhile (fun c => c == ' ')).tail)).map
      (fun n => -(Int.ofNat n))
  else
    (parseUnsignedCoord (cs.dropWhile (fun c => c == ' '))).map
      (fun n => Int.ofNat n)

/-- Format a coordinate given in thousandths as the fixed-point
`%8.3f` field. -/
def fmtCoord (m : Int) : List Char :=
  padLeftC 8 ' '
    (if m < 0 then
      '-' :: (natToChars (m.natAbs / 1000) ++ '.' ::
        padLeftC 3 '0' (natToChars (m.natAbs % 1000)))
    else
      natToChars (m.natAbs / 1000) ++ '.' ::
        padLeftC 3 '0' (natToChars (m.natAbs % 1000)))

/-- The fields of one ATOM record that the data model retains: chain
identifier, residue sequence number, and the coordinates in
thousandths. -/
structure AtomRecord where
  chain : Char
  seq : Int
  xm : Int
  ym : Int
  zm : Int
deriving DecidableEq, Repr

/-- Field ranges imposed by the fixed-column widths. -/
def boundsRec (r : AtomRecord) : Prop :=
  0 ≤ r.seq ∧ r.seq ≤ 9999 ∧
    (-999999 ≤ r.xm ∧ r.xm ≤ 9999999) ∧
    (-999999 ≤ r.ym ∧ r.ym ≤ 9999999) ∧
    (-999999 ≤ r.zm ∧ r.zm ≤ 9999999)

/-- Columns 0-20 of an emitted ATOM record: record name, a fixed serial,
atom name and residue name fillers (fields the data model does not
retain). -/
def headerPre : List Char := "ATOM      1  CA  UNK ".toList

def icodeFill : List Char := [' ', ' ', ' ', ' ']

def printAtomLine (r : AtomRecord) : List Char :=
  headerPre ++ [r.chain] ++ fmtSeq r.seq ++ icodeFill ++
    fmtCoord r.xm ++ fmtCoord r.ym ++ fmtCoord r.zm

/-- Parse one 54-column ATOM record line. -/
def parseAtomLineC (l : List Char) : Option AtomRecord :=
  if l.take 6 = "ATOM  ".toList then
    if l.length = 54 then
      match (l.drop 21).head?, parseSeq ((l.drop 22).take 4),
          parseCoord ((l.drop 30).take 8), parseCoord ((l.drop 38).take 8),
          parseCoord ((l.drop 46).take 8) with
      | some c, some i, some x, some y, some z => some ⟨c, i, x, y, z⟩
      | _, _, _, _, _ => none
    else none
  else none

def parseLine (s : String) : Option AtomRecord := parseAtomLineC s.toList

def isAtomLineB (s : String) : Bool := decide (s.toList.take 6 = "ATOM  ".toList)

/-- Extract the ATOM records of a text, in order; a malformed ATOM line
is a parse error, any other line is ignored. -/
def extractRecs : List String → Except PyError (List AtomRecord)
  | [] => .ok []
  | l :: ls =>
    if isAtomLineB l then
      match parseLine l with
      | some r => (extractRecs ls).map (fun rs => r :: rs)
      | none => .error .parseError
    else extractRecs ls

/-- The ATOM records a text carries, at whatever position, ignoring
lines that are not well-formed ATOM records. -/
def textAtomRecords (ls : List String) : List AtomRecord :=
  ls.filterMap parseLine

/-- Group consecutive elements with the same key. -/
def groupRuns {α κ : Type} [DecidableEq κ] (key : α → κ) : List α → List (κ × List α)
  | [] => []
  | a :: as =>
    match groupRuns key as with
    | [] => [(key a, [a])]
    | (k, g) :: rest =>
      if key a = k then (k, a :: g) :: rest
      else (key a, [a]) :: (k, g) :: rest

/-- Build the hierarchy from the record list: a single model, chains
from runs of equal chain ids, residues from runs of equal residue ids,
coordinates divided by 1000 into the exact rational frame. -/
def recAtom (r : AtomRecord) : Atom :=
  ⟨⟨(r.xm : ℚ) / 1000, (r.ym : ℚ) / 1000, (r.zm : ℚ) / 1000⟩⟩

def buildChain (cg : Char × List AtomRecord) : Chain :=
  Chain.mk (String.mk [cg.1])
    ((groupRuns (fun r => r.seq) cg.2).map
      (fun rg => Residue.mk rg.1 (rg.2.map recAtom)))

def buildStructure (recs : List AtomRecord) : PDBStructure :=
  if recs.isEmpty then ⟨[]⟩
  else ⟨[Model.mk ((groupRuns (fun r => r.chain) recs).map buildChain)]⟩

/-- A coordinate back in thousandths, rounded at formatting. -/
def milliOf (q : ℚ) : Int := round (q * 1000)

def chainCharOf (c : Chain) : Char := c.chainId.toList.headD ' '

def recOfAtom (cc : Char) (seq : Int) (a : Atom) : AtomRecord :=
  ⟨cc, seq, milliOf a.coord.x, milliOf a.coord.y, milliOf a.coord.z⟩

/-- The ATOM records of a structure, in hierarchy order. -/
def flattenRecs (s : PDBStructure) : List AtomRecord :=
  s.models.flatMap fun m => m.chains.flatMap fun c =>
    c.residues.flatMap fun r => r.atoms.map (recOfAtom (chainCharOf c) r.resId)

/-- Parse a text given as its list of lines. -/
def parsePDBLines (ls : List String) : Except PyError PDBStructure :=
  (extractRecs ls).map buildStructure

/-- The lines of a raw string. -/
def strLines (s : String) : List String := s.splitOn "\n"

/-- Embedding of `parse_pdb_file(pdb_input)`: `os.path.isfile` is
modelled by a filesystem oracle mapping a path that names an existing
file to its contents; when the input names a file its contents are
parsed, otherwise the input string itself is parsed as raw text. -/
def parse_pdb_file (fs : String → Option (List String)) (pdb_input : String) :
    Except PyError PDBStructure :=
  match fs pdb_input with
  | some fileLines => parsePDBLines fileLines
  | none => parsePDBLines (strLines pdb_input)

/-- Embedding of `pdb_to_string(structure)`: the serialized text, as its
list of lines — one ATOM record per atom in hierarchy order, then the
closing END record. -/
def pdb_to_string (s : PDBStructure) : List String :=
  (flattenRecs s).map (fun r => String.mk (printAtomLine r)) ++ ["END"]

structure HttpResponse where
  status : Nat
  body : List String

/-- Embedding of `fetch_pdb_structure(pdb_id)`: the network is an oracle
from URL to response; the code interpolates the id into the fixed URL
template, raises on any status other than 200, and otherwise hands the
body to the parser. -/
def fetch_pdb_structure (http : String → HttpResponse) (pdb_id : String) :
    Except PyError PDBStructure :=
  let url := "https://files.rcsb.org/download/" ++ pdb_id ++ ".pdb"
  let response := http url
  if response.status ≠ 200 then .error (.fetchError response.status)
  else parsePDBLines response.body

section TextLemmas

theorem charDigit_digitChar {d : Nat} (h : d < 10) : charDigit (digitChar d) = d := by
  interval_cases d <;> decide

theorem isDigitChar_digitChar {d : Nat} (h : d < 10) :
    isDigitChar (digitChar d) = true := by
  interval_cases d <;> decide

theorem digit_toNat_bounds {c : Char} (h : isDigitChar c = true) :
    48 ≤ c.toNat ∧ c.toNat ≤ 57 := by
  simp only [isDigitChar, Bool.and_eq_true, decide_eq_true_eq] at h
  exact h

theorem not_space_of_digit {c : Char} (h : isDigitChar c = true) :
    (c == ' ') = false := by
  obtain ⟨h1, -⟩ := digit_toNat_bounds h
  cases hb : c == ' ' with
  | false => rfl
  | true =>
    obtain rfl : c = ' ' := eq_of_beq hb
    simp at h1

theorem not_dash_of_digit {c : Char} (h : isDigitChar c = true) : c ≠ '-' := by
  obtain ⟨h1, -⟩ := digit_toNat_bounds h
  rintro rfl
  simp at h1

theorem natToCharsCore_foldl :
    ∀ fuel n acc, n ≤ fuel →
      (natToCharsCore fuel n).foldl chStep acc =
        acc * 10 ^ (natToCharsCore fuel n).length + n := by
  intro fuel
  induction fuel with
  | zero =>
    intro n acc hn
    interval_cases n
    simp [natToCharsCore]
  | succ f ih =>
    intro n acc hn
    by_cases h0 : n = 0
    · subst h0; simp [natToCharsCore]
    · simp only [natToCharsCore, if_neg h0]
      rw [List.foldl_append, List.length_append]
      have hdiv : n / 10 ≤ f := by
        have : n / 10 < n := Nat.div_lt_self (Nat.pos_of_ne_zero h0) (by norm_num)
        omega
      rw [ih (n / 10) acc hdiv]
      simp only [List.foldl_cons, List.foldl_nil, List.length_cons,
        List.length_nil]
      rw [chStep, charDigit_digitChar (Nat.mod_lt n (by norm_num))]
      have hdm : 10 * (n / 10) + n % 10 = n := Nat.div_add_mod n 10
      calc (acc * 10 ^ (natToCharsCore f (n / 10)).length + n / 10) * 10 + n % 10
          = acc * (10 ^ (natToCharsCore f (n / 10)).length * 10) +
              (10 * (n / 10) + n % 10) := by ring
        _ = acc * 10 ^ ((natToCharsCore f (n / 10)).length + (0 + 1)) + n := by
              rw [hdm, pow_succ]

theorem charsToNat_natToChars (n : Nat) : charsToNat (natToChars n) = n := by
  by_cases h0 : n = 0
  · subst h0; decide
  · rw [natToChars, if_neg h0, charsToNat,
      natToCharsCore_foldl n n 0 (le_refl n)]
    ring

theorem natToCharsCore_all_digits :
    ∀ fuel n, (natToCharsCore fuel n).all isDigitChar = true := by
  intro fuel
  induction fuel with
  | zero => intro n; rfl
  | succ f ih =>
    intro n
    by_cases h0 : n = 0
    · simp [natToCharsCore, h0]
    · simp only [natToCharsCore, if_neg h0, List.all_append]
      rw [ih (n / 10)]
      simp [isDigitChar_digitChar (Nat.mod_lt n (by norm_num))]

theorem natToChars_all_digits (n : Nat) :
    (natToChars n).all isDigitChar = true := by
  by_cases h0 : n = 0
  · subst h0; decide
  · rw [natToChars, if_neg h0]; exact natToCharsCore_all_digits n n

theorem natToChars_ne_nil (n : Nat) : natToChars n ≠ [] := by
  by_cases h0 : n = 0
  · simp [natToChars, h0]
  · rw [natToChars, if_neg h0]
    obtain ⟨f, rfl⟩ : ∃ f, n = f + 1 := ⟨n - 1, by omega⟩
    simp [natToCharsCore, h0]

theorem natToCharsCore_length_le :
    ∀ fuel n k, n ≤ fuel → n < 10 ^ k → (natToCharsCore fuel n).length ≤ k := by
  intro fuel
  induction fuel with
  | zero => intro n k hn hk; interval_cases n; simp [natToCharsCore]
  | succ f ih =>
    intro n k hn hk
    by_cases h0 : n = 0
    · simp [natToCharsCore, h0]
    · simp only [natToCharsCore, if_neg h0, List.length_append,
        List.length_cons, List.length_nil]
      have hkpos : k ≠ 0 := by
        rintro rfl
        simp at hk
        omega
      have hdiv : n / 10 ≤ f := by
        have : n / 10 < n := Nat.div_lt_self (Nat.pos_of_ne_zero h0) (by norm_num)
        omega
      have hlt : n / 10 < 10 ^ (k - 1) := by
        rw [Nat.div_lt_iff_lt_mul (by norm_num)]
        calc n < 10 ^ k := hk
          _ = 10 ^ (k - 1) * 10 := by
              rw [← pow_succ]
              congr 1
              omega
      have := ih (n / 10) (k - 1) hdiv hlt
      omega

theorem natToChars_length_le {n k : Nat} (hk : 1 ≤ k) (h : n < 10 ^ k) :
    (natToChars n).length ≤ k := by
  by_cases h0 : n = 0
  · simp [natToChars, h0]; omega
  · rw [natToChars, if_neg h0]
    exact natToCharsCore_length_le n n k (le_refl n) h

theorem foldl_chStep_lt :
    ∀ (cs : List Char) (acc : Nat), cs.all isDigitChar = true →
      cs.foldl chStep acc < (acc + 1) * 10 ^ cs.length := by
  intro cs
  induction cs with
  | nil => intro acc _; simp
  | cons c cs ih =>
    intro acc hall
    simp only [List.all_cons, Bool.and_eq_true] at hall
    obtain ⟨hc, hcs⟩ := hall
    obtain ⟨-, h57⟩ := digit_toNat_bounds hc
    have hd : charDigit c ≤ 9 := by rw [charDigit]; omega
    simp only [List.foldl_cons, List.length_cons]
    calc List.foldl chStep (chStep acc c) cs
        < (chStep acc c + 1) * 10 ^ cs.length := ih (chStep acc c) hcs
      _ ≤ ((acc + 1) * 10) * 10 ^ cs.length := by
          apply Nat.mul_le_mul_right
          rw [chStep]
          omega
      _ = (acc + 1) * 10 ^ (cs.length + 1) := by rw [pow_succ]; ring

theorem charsToNat_lt_pow {cs : List Char} {k : Nat}
    (hall : cs.all isDigitChar = true) (hlen : cs.length ≤ k) :
    charsToNat cs < 10 ^ k := by
  calc charsToNat cs < (0 + 1) * 10 ^ cs.length := foldl_chStep_lt cs 0 hall
    _ = 10 ^ cs.length := by ring
    _ ≤ 10 ^ k := Nat.pow_le_pow_right (by norm_num) hlen

theorem dropWhile_space_pad (k : Nat) (c : Char) (cs : List Char)
    (hc : (c == ' ') = false) :
    (List.replicate k ' ' ++ c :: cs).dropWhile (fun x => x == ' ') = c :: cs := by
  induction k with
  | zero => simp [List.dropWhile_cons, hc]
  | succ k ih => simpa [List.replicate_succ, List.dropWhile_cons] using ih

theorem charsToNat_zero_pad (k : Nat) (l : List Char) :
    charsToNat (List.replicate k '0' ++ l) = charsToNat l := by
  induction k with
  | zero => rfl
  | succ k ih =>
    rw [charsToNat, List.replicate_succ, List.cons_append, List.foldl_cons,
      show chStep 0 '0' = 0 from rfl]
    exact ih

theorem padLeftC_length {w : Nat} {c : Char} {l : List Char} (h : l.length ≤ w) :
    (padLeftC w c l).length = w := by
  simp [padLeftC]
  omega

theorem dropWhile_length_le {α : Type} (p : α → Bool) (l : List α) :
    (l.dropWhile p).length ≤ l.length := by
  induction l with
  | nil => simp
  | cons a as ih =>
    rw [List.dropWhile_cons]
    split
    · exact Nat.le_succ_of_le ih
    · exact le_refl _

theorem parsePadNat_pad (w n : Nat) :
    parsePadNat (padLeftC w ' ' (natToChars n)) = some n := by
  rcases hcons : natToChars n with _ | ⟨c, cs⟩
  · exact absurd hcons (natToChars_ne_nil n)
  have hall := natToChars_all_digits n
  rw [hcons, List.all_cons, Bool.and_eq_true] at hall
  obtain ⟨hc, hcs⟩ := hall
  have hdrop : (List.replicate (w - (c :: cs).length) ' ' ++ c :: cs).dropWhile
      (fun x => x == ' ') = c :: cs :=
    dropWhile_space_pad _ c cs (not_space_of_digit hc)
  have hA : ¬((c :: cs).isEmpty = true) := by simp
  have hB : (c :: cs).all isDigitChar = true := by simp [hc, hcs]
  rw [padLeftC]
  rw [parsePadNat]
  rw [hdrop]
  rw [if_neg hA]
  rw [if_pos hB]
  rw [← hcons]
  rw [charsToNat_natToChars]

theorem parsePadNat_bound {cs : List Char} {n : Nat}
    (h : parsePadNat cs = some n) : n < 10 ^ cs.length := by
  rw [parsePadNat] at h
  by_cases he : (cs.dropWhile (fun c => c == ' ')).isEmpty
  · rw [if_pos he] at h; cases h
  rw [if_neg he] at h
  by_cases ha : (cs.dropWhile (fun c => c == ' ')).all isDigitChar
  · rw [if_pos ha] at h
    obtain rfl : charsToNat (cs.dropWhile (fun c => c == ' ')) = n := by
      cases h; rfl
    exact charsToNat_lt_pow ha (dropWhile_length_le _ cs)
  · rw [if_neg ha] at h; cases h

end TextLemmas

section CoordLemmas

theorem fmtSeq_parseSeq {i : Int} (h0 : 0 ≤ i) (_h4 : i ≤ 9999) :
    parseSeq (fmtSeq i) = some i := by
  rw [fmtSeq, if_neg (by omega), parseSeq, parsePadNat_pad]
  simp [Int.ofNat_eq_coe, Int.toNat_of_nonneg h0]

theorem fmtSeq_length {i : Int} (h0 : 0 ≤ i) (h4 : i ≤ 9999) :
    (fmtSeq i).length = 4 := by
  rw [fmtSeq, if_neg (by omega)]
  refine padLeftC_length (natToChars_length_le (by norm_num) ?_)
  have : i.toNat < 10000 := by omega
  exact lt_of_lt_of_eq this (by norm_num)

theorem all_replicate_zero (k : Nat) :
    (List.replicate k '0').all isDigitChar = true := by
  rw [List.all_eq_true]
  intro x hx
  obtain rfl : x = '0' := List.eq_of_mem_replicate hx
  decide

theorem pad3_all_digits (r : Nat) :
    (padLeftC 3 '0' (natToChars r)).all isDigitChar = true := by
  rw [padLeftC, List.all_append, all_replicate_zero, natToChars_all_digits]
  rfl

theorem pad3_value (r : Nat) : charsToNat (padLeftC 3 '0' (natToChars r)) = r := by
  rw [padLeftC, charsToNat_zero_pad, charsToNat_natToChars]

theorem pad3_length {r : Nat} (hr : r < 1000) :
    (padLeftC 3 '0' (natToChars r)).length = 3 := by
  refine padLeftC_length (natToChars_length_le (by norm_num) ?_)
  exact lt_of_lt_of_eq hr (by norm_num)

theorem parseUnsignedCoord_core (q r : Nat) (hr : r < 1000) :
    parseUnsignedCoord (natToChars q ++ '.' :: padLeftC 3 '0' (natToChars r)) =
      some (q * 1000 + r) := by
  have hBlen := pad3_length hr
  have hAne := natToChars_ne_nil q
  have hAlen : 1 ≤ (natToChars q).length := List.length_pos.mpr hAne
  have hlen : (natToChars q ++ '.' :: padLeftC 3 '0' (natToChars r)).length =
      (natToChars q).length + 4 := by simp [hBlen]
  have h4 : (natToChars q ++ '.' :: padLeftC 3 '0' (natToChars r)).length - 4 =
      (natToChars q).length := by omega
  rw [parseUnsignedCoord, if_neg (by omega), h4, List.take_left, List.drop_left]
  rw [if_pos (show ('.' :: padLeftC 3 '0' (natToChars r)).head? = some '.'
    from rfl)]
  rw [show ('.' :: padLeftC 3 '0' (natToChars r)).tail =
    padLeftC 3 '0' (natToChars r) from rfl]
  rw [if_neg (by simp [List.isEmpty_iff, hAne])]
  rw [if_pos (by rw [natToChars_all_digits, pad3_all_digits]; rfl)]
  rw [charsToNat_natToChars, pad3_value]

theorem parseCoord_fmtCoord {m : Int} (hlo : -999999 ≤ m) (hhi : m ≤ 9999999) :
    parseCoord (fmtCoord m) = some m := by
  have hrlt : m.natAbs % 1000 < 1000 := Nat.mod_lt _ (by norm_num)
  have hdm := Nat.div_add_mod m.natAbs 1000
  by_cases hneg : m < 0
  · rw [fmtCoord, if_pos hneg, padLeftC]
    rw [parseCoord]
    rw [dropWhile_space_pad _ '-' _ (by decide)]
    rw [if_pos (show ('-' :: (natToChars (m.natAbs / 1000) ++ '.' ::
      padLeftC 3 '0' (natToChars (m.natAbs % 1000)))).head? = some '-'
      from rfl)]
    rw [show ('-' :: (natToChars (m.natAbs / 1000) ++ '.' ::
        padLeftC 3 '0' (natToChars (m.natAbs % 1000)))).tail =
      natToChars (m.natAbs / 1000) ++ '.' ::
        padLeftC 3 '0' (natToChars (m.natAbs % 1000)) from rfl]
    rw [parseUnsignedCoord_core _ _ hrlt]
    simp only [Option.map_some', Option.some.injEq, Int.ofNat_eq_natCast]
    omega
  · rcases hA : natToChars (m.natAbs / 1000) with _ | ⟨c, cs⟩
    · exact absurd hA (natToChars_ne_nil _)
    have hcdig : isDigitChar c = true := by
      have hall := natToChars_all_digits (m.natAbs / 1000)
      rw [hA, List.all_cons, Bool.and_eq_true] at hall
      exact hall.1
    rw [fmtCoord, if_neg hneg, padLeftC, hA, List.cons_append]
    rw [parseCoord]
    rw [dropWhile_space_pad _ c _ (not_space_of_digit hcdig)]
    rw [if_neg (by
      simp only [List.head?_cons, Option.some.injEq]
      exact not_dash_of_digit hcdig)]
    rw [← List.cons_append, ← hA]
    rw [parseUnsignedCoord_core _ _ hrlt]
    simp only [Option.map_some', Option.some.injEq, Int.ofNat_eq_natCast]
    omega

theorem parseUnsignedCoord_some {t : List Char} {n : Nat}
    (h : parseUnsignedCoord t = some n) :
    5 ≤ t.length ∧ n < 10 ^ (t.length - 4) * 1000 := by
  rw [parseUnsignedCoord] at h
  by_cases h5 : t.length < 5
  · rw [if_pos h5] at h; cases h
  rw [if_neg h5] at h
  by_cases hdot : (t.drop (t.length - 4)).head? = some '.'
  · rw [if_pos hdot] at h
    by_cases hie : (t.take (t.length - 4)).isEmpty
    · rw [if_pos hie] at h; cases h
    rw [if_neg hie] at h
    by_cases hall : ((t.take (t.length - 4)).all isDigitChar &&
        ((t.drop (t.length - 4)).tail).all isDigitChar) = true
    · rw [if_pos hall] at h
      rw [Bool.and_eq_true] at hall
      obtain ⟨hall1, hall2⟩ := hall
      obtain rfl : charsToNat (t.take (t.length - 4)) * 1000 +
          charsToNat ((t.drop (t.length - 4)).tail) = n := by cases h; rfl
      refine ⟨by omega, ?_⟩
      have hiplen : (t.take (t.length - 4)).length = t.length - 4 := by
        rw [List.length_take]; omega
      have htail : ((t.drop (t.length - 4)).tail).length = 3 := by
        rw [List.length_tail, List.length_drop]; omega
      have h1 : charsToNat (t.take (t.length - 4)) < 10 ^ (t.length - 4) :=
        charsToNat_lt_pow hall1 (le_of_eq hiplen)
      have h2 : charsToNat ((t.drop (t.length - 4)).tail) < 1000 := by
        have := charsToNat_lt_pow hall2 (le_of_eq htail)
        exact lt_of_lt_of_eq this (by norm_num)
      calc charsToNat (t.take (t.length - 4)) * 1000 +
            charsToNat ((t.drop (t.length - 4)).tail)
          < (charsToNat (t.take (t.length - 4)) + 1) * 1000 := by omega
        _ ≤ 10 ^ (t.length - 4) * 1000 :=
            Nat.mul_le_mul_right 1000 (Nat.succ_le_of_lt h1)
    · rw [if_neg hall] at h; cases h
  · rw [if_neg hdot] at h; cases h

theorem parseCoord_bound {cs : List Char} {m : Int} (hlen : cs.length ≤ 8)
    (h : parseCoord cs = some m) : -999999 ≤ m ∧ m ≤ 9999999 := by
  rw [parseCoord] at h
  have hdwlen : (cs.dropWhile (fun c => c == ' ')).length ≤ 8 :=
    le_trans (dropWhile_length_le _ cs) hlen
  by_cases hdash : (cs.dropWhile (fun c => c == ' ')).head? = some '-'
  · rw [if_pos hdash] at h
    rcases hpu : parseUnsignedCoord ((cs.dropWhile (fun c => c == ' ')).tail)
      with _ | n
    · rw [hpu] at h; cases h
    rw [hpu, Option.map_some'] at h
    obtain rfl : -(Int.ofNat n) = m := by cases h; rfl
    obtain ⟨h5, hb⟩ := parseUnsignedCoord_some hpu
    have htl : ((cs.dropWhile (fun c => c == ' ')).tail).length ≤ 7 := by
      rw [List.length_tail]; omega
    have hexp : ((cs.dropWhile (fun c => c == ' ')).tail).length - 4 ≤ 3 := by
      omega
    have hn : n < 10 ^ 3 * 1000 :=
      lt_of_lt_of_le hb
        (Nat.mul_le_mul_right 1000 (Nat.pow_le_pow_right (by norm_num) hexp))
    norm_num at hn
    simp only [Int.ofNat_eq_natCast]
    constructor <;> omega
  · rw [if_neg hdash] at h
    rcases hpu : parseUnsignedCoord (cs.dropWhile (fun c => c == ' '))
      with _ | n
    · rw [hpu] at h; cases h
    rw [hpu, Option.map_some'] at h
    obtain rfl : Int.ofNat n = m := by cases h; rfl
    obtain ⟨h5, hb⟩ := parseUnsignedCoord_some hpu
    have hexp : (cs.dropWhile (fun c => c == ' ')).length - 4 ≤ 4 := by omega
    have hn : n < 10 ^ 4 * 1000 :=
      lt_of_lt_of_le hb
        (Nat.mul_le_mul_right 1000 (Nat.pow_le_pow_right (by norm_num) hexp))
    norm_num at hn
    simp only [Int.ofNat_eq_natCast]
    constructor <;> omega

theorem fmtCoord_length {m : Int} (hlo : -999999 ≤ m) (hhi : m ≤ 9999999) :
    (fmtCoord m).length = 8 := by
  have hrlt : m.natAbs % 1000 < 1000 := Nat.mod_lt _ (by norm_num)
  have hB := pad3_length hrlt
  rw [fmtCoord]
  apply padLeftC_length
  by_cases hneg : m < 0
  · rw [if_pos hneg]
    have hq : m.natAbs / 1000 < 10 ^ 3 := by
      have h3 : m.natAbs / 1000 < 1000 := by omega
      exact lt_of_lt_of_eq h3 (by norm_num)
    have hA := natToChars_length_le (by norm_num) hq
    simp only [List.length_cons, List.length_append, hB]
    omega
  · rw [if_neg hneg]
    have hq : m.natAbs / 1000 < 10 ^ 4 := by
      have h4 : m.natAbs / 1000 < 10000 := by omega
      exact lt_of_lt_of_eq h4 (by norm_num)
    have hA := natToChars_length_le (by norm_num) hq
    simp only [List.length_cons, List.length_append, hB]
    omega

end CoordLemmas

section LineLemmas

theorem append_drop_exact {A B : List Char} {n : Nat} (h : A.length = n) :
    (A ++ B).drop n = B := by
  subst h
  exact List.drop_left A B

theorem append_take_exact {A B : List Char} {n : Nat} (h : A.length = n) :
    (A ++ B).take n = A := by
  subst h
  exact List.take_left A B

theorem parseAtomLine_assemble (c : Char) (S F X Y Z : List Char)
    (hS : S.length = 4) (hF : F.length = 4) (hX : X.length = 8)
    (hY : Y.length = 8) (hZ : Z.length = 8) (i xm ym zm : Int)
    (hSv : parseSeq S = some i) (hXv : parseCoord X = some xm)
    (hYv : parseCoord Y = some ym) (hZv : parseCoord Z = some zm) :
    parseAtomLineC (headerPre ++ ([c] ++ (S ++ (F ++ (X ++ (Y ++ Z)))))) =
      some ⟨c, i, xm, ym, zm⟩ := by
  have hh : headerPre.length = 21 := rfl
  set L := headerPre ++ ([c] ++ (S ++ (F ++ (X ++ (Y ++ Z))))) with hL
  have hlen : L.length = 54 := by
    rw [hL]
    simp only [List.length_append, List.length_cons, List.length_nil, hh,
      hS, hF, hX, hY, hZ]
  have htake6 : L.take 6 = "ATOM  ".toList := by
    rw [hL, List.take_append_eq_append_take,
      show headerPre.take 6 = "ATOM  ".toList from rfl,
      show 6 - headerPre.length = 0 from rfl, List.take_zero, List.append_nil]
  have hL22 : L = (headerPre ++ [c]) ++ (S ++ (F ++ (X ++ (Y ++ Z)))) := by
    rw [hL, List.append_assoc]
  have hL26 : L = ((headerPre ++ [c]) ++ S) ++ (F ++ (X ++ (Y ++ Z))) := by
    rw [hL]; simp only [List.append_assoc]
  have hL30 : L = (((headerPre ++ [c]) ++ S) ++ F) ++ (X ++ (Y ++ Z)) := by
    rw [hL]; simp only [List.append_assoc]
  have hL38 : L = ((((headerPre ++ [c]) ++ S) ++ F) ++ X) ++ (Y ++ Z) := by
    rw [hL]; simp only [List.append_assoc]
  have hL46 : L = (((((headerPre ++ [c]) ++ S) ++ F) ++ X) ++ Y) ++ Z := by
    rw [hL]; simp only [List.append_assoc]
  have h21 : (L.drop 21).head? = some c := by
    rw [hL, append_drop_exact hh]
    rfl
  have t22 : (L.drop 22).take 4 = S := by
    rw [hL22, append_drop_exact (by simp [hh]), append_take_exact hS]
  have t30 : (L.drop 30).take 8 = X := by
    rw [hL30, append_drop_exact (by simp [hh, hS, hF]), append_take_exact hX]
  have t38 : (L.drop 38).take 8 = Y := by
    rw [hL38, append_drop_exact (by simp [hh, hS, hF, hX]),
      append_take_exact hY]
  have t46 : (L.drop 46).take 8 = Z := by
    rw [hL46, append_drop_exact (by simp [hh, hS, hF, hX, hY]), ← hZ,
      List.take_length]
  rw [parseAtomLineC, if_pos htake6, if_pos hlen, h21, t22, t30, t38, t46,
    hSv, hXv, hYv, hZv]

theorem parse_print {r : AtomRecord} (hb : boundsRec r) :
    parseAtomLineC (printAtomLine r) = some r := by
  obtain ⟨hs0, hs4, hx, hy, hz⟩ := hb
  have hform : printAtomLine r = headerPre ++ ([r.chain] ++ (fmtSeq r.seq ++
      (icodeFill ++ (fmtCoord r.xm ++ (fmtCoord r.ym ++ fmtCoord r.zm))))) := by
    rw [printAtomLine]
    simp only [List.append_assoc]
  rw [hform, parseAtomLine_assemble r.chain _ _ _ _ _ (fmtSeq_length hs0 hs4)
    (show icodeFill.length = 4 from rfl) (fmtCoord_length hx.1 hx.2)
    (fmtCoord_length hy.1 hy.2)
    (fmtCoord_length hz.1 hz.2) r.seq r.xm r.ym r.zm
    (fmtSeq_parseSeq hs0 hs4) (parseCoord_fmtCoord hx.1 hx.2)
    (parseCoord_fmtCoord hy.1 hy.2) (parseCoord_fmtCoord hz.1 hz.2)]

theorem parseAtomLineC_bounds {l : List Char} {r : AtomRecord}
    (h : parseAtomLineC l = some r) : boundsRec r := by
  rw [parseAtomLineC] at h
  by_cases h6 : l.take 6 = "ATOM  ".toList
  swap
  · rw [if_neg h6] at h; cases h
  rw [if_pos h6] at h
  by_cases h54 : l.length = 54
  swap
  · rw [if_neg h54] at h; cases h
  rw [if_pos h54] at h
  split at h
  case _ c i x y z hc hi hx hy hz =>
    obtain rfl : AtomRecord.mk c i x y z = r := by cases h; rfl
    rw [parseSeq, Option.map_eq_some'] at hi
    obtain ⟨n, hn, rfl⟩ := hi
    have hseqlen : ((l.drop 22).take 4).length = 4 := by
      rw [List.length_take, List.length_drop]; omega
    have hnb := parsePadNat_bound hn
    rw [hseqlen] at hnb
    norm_num at hnb
    have hxb := parseCoord_bound (by
      rw [List.length_take, List.length_drop]; omega) hx
    have hyb := parseCoord_bound (by
      rw [List.length_take, List.length_drop]; omega) hy
    have hzb := parseCoord_bound (by
      rw [List.length_take, List.length_drop]; omega) hz
    refine ⟨?_, ?_, hxb, hyb, hzb⟩ <;>
      simp only [Int.ofNat_eq_natCast] <;> omega
  case _ =>
    cases h

end LineLemmas

section GroupLemmas

theorem groupRuns_key {α κ : Type} [DecidableEq κ] (key : α → κ) :
    ∀ (l : List α) (p : κ × List α), p ∈ groupRuns key l →
      ∀ x ∈ p.2, key x = p.1 := by
  intro l
  induction l with
  | nil => intro p hp; simp [groupRuns] at hp
  | cons a as ih =>
    intro p hp x hx
    rw [groupRuns] at hp
    rcases hg : groupRuns key as with _ | ⟨⟨k, g⟩, rest⟩
    · rw [hg] at hp
      simp only [List.mem_cons, List.not_mem_nil, or_false] at hp
      subst hp
      simp only [List.mem_cons, List.not_mem_nil, or_false] at hx
      subst hx
      rfl
    · rw [hg] at hp
      simp only [] at hp
      by_cases hk : key a = k
      · rw [if_pos hk] at hp
        rcases List.mem_cons.mp hp with rfl | hp2
        · rcases List.mem_cons.mp hx with rfl | hx2
          · exact hk
          · exact ih (k, g) (hg ▸ List.mem_cons_self _ _) x hx2
        · exact ih p (hg ▸ List.mem_cons_of_mem _ hp2) x hx
      · rw [if_neg hk] at hp
        rcases List.mem_cons.mp hp with rfl | hp2
        · simp only [List.mem_cons, List.not_mem_nil, or_false] at hx
          subst hx
          rfl
        · exact ih p (hg ▸ hp2) x hx

theorem groupRuns_flatten {α κ : Type} [DecidableEq κ] (key : α → κ) :
    ∀ l : List α, (groupRuns key l).flatMap (fun p => p.2) = l := by
  intro l
  induction l with
  | nil => rfl
  | cons a as ih =>
    rw [groupRuns]
    rcases hg : groupRuns key as with _ | ⟨⟨k, g⟩, rest⟩
    · rw [hg] at ih
      simp only [List.flatMap_nil] at ih
      simp [← ih]
    · rw [hg] at ih
      simp only []
      by_cases hk : key a = k
      · rw [if_pos hk]
        simp only [List.flatMap_cons] at ih ⊢
        rw [List.cons_append, ih]
      · rw [if_neg hk]
        simp only [List.flatMap_cons] at ih ⊢
        rw [List.singleton_append, ih]

theorem groupRuns_elem {α κ : Type} [DecidableEq κ] (key : α → κ)
    {l : List α} {p : κ × List α} (hp : p ∈ groupRuns key l) {x : α}
    (hx : x ∈ p.2) : x ∈ l := by
  rw [← groupRuns_flatten key l]
  exact List.mem_flatMap.mpr ⟨p, hp, hx⟩

theorem milli_recover (m : Int) : milliOf ((m : ℚ) / 1000) = m := by
  rw [milliOf, div_mul_cancel₀ _ (by norm_num : (1000 : ℚ) ≠ 0),
    round_intCast]

theorem recOfAtom_recAtom {y : AtomRecord} {c : Char} {i : Int}
    (hc : y.chain = c) (hi : y.seq = i) :
    recOfAtom c i (recAtom y) = y := by
  obtain ⟨yc, yi, yx, yy, yz⟩ := y
  simp only at hc hi
  subst hc hi
  simp only [recOfAtom, recAtom, milli_recover]

theorem flattenRecs_build (recs : List AtomRecord) :
    flattenRecs (buildStructure recs) = recs := by
  by_cases he : recs.isEmpty
  · obtain rfl : recs = [] := List.isEmpty_iff.mp he
    rfl
  rw [buildStructure, if_neg he, flattenRecs]
  simp only [List.flatMap_cons, List.flatMap_nil, List.append_nil]
  rw [List.flatMap_map]
  have hcongr : ∀ cg ∈ groupRuns (fun r => r.chain) recs,
      ((buildChain cg).residues.flatMap fun r =>
        r.atoms.map (recOfAtom (chainCharOf (buildChain cg)) r.resId)) =
        cg.2 := by
    rintro ⟨c, g⟩ hcg
    have hkey := groupRuns_key (fun r => r.chain) recs (c, g) hcg
    have hcc : chainCharOf (buildChain (c, g)) = c := rfl
    have hres : (buildChain (c, g)).residues =
        (groupRuns (fun r => r.seq) g).map
          (fun rg => Residue.mk rg.1 (rg.2.map recAtom)) := rfl
    rw [hcc, hres, List.flatMap_map]
    have hinner : ∀ rg ∈ groupRuns (fun r => r.seq) g,
        ((Residue.mk rg.1 (rg.2.map recAtom)).atoms.map
          (recOfAtom c (Residue.mk rg.1 (rg.2.map recAtom)).resId)) = rg.2 := by
      rintro ⟨i, rg⟩ hrg
      have hkey2 := groupRuns_key (fun r => r.seq) g (i, rg) hrg
      simp only [List.map_map]
      refine (List.map_congr_left ?_).trans (List.map_id rg)
      intro y hy
      exact recOfAtom_recAtom (hkey y (groupRuns_elem _ hrg hy)) (hkey2 y hy)
    exact (List.flatMap_congr hinner).trans (groupRuns_flatten _ g)
  exact (List.flatMap_congr hcongr).trans (groupRuns_flatten _ recs)

end GroupLemmas

section ExtractLemmas

theorem parseLine_none_of_not_atom {l : String} (h : ¬isAtomLineB l = true) :
    parseLine l = none := by
  rw [isAtomLineB, decide_eq_true_eq] at h
  rw [parseLine, parseAtomLineC, if_neg h]

theorem extractRecs_filterMap :
    ∀ {ls : List String} {recs : List AtomRecord},
      extractRecs ls = .ok recs → textAtomRecords ls = recs := by
  intro ls
  induction ls with
  | nil =>
    intro recs h
    obtain rfl : ([] : List AtomRecord) = recs := by cases h; rfl
    rfl
  | cons l ls ih =>
    intro recs h
    rw [extractRecs] at h
    by_cases hal : isAtomLineB l
    · rw [if_pos hal] at h
      rcases hpl : parseLine l with _ | rec
      · rw [hpl] at h; cases h
      rw [hpl] at h
      rcases hrec : extractRecs ls with e | recs'
      · rw [hrec] at h; cases h
      rw [hrec] at h
      obtain rfl : rec :: recs' = recs := by cases h; rfl
      rw [textAtomRecords, List.filterMap_cons, hpl]
      exact congrArg (rec :: ·) (ih hrec)
    · rw [if_neg hal] at h
      rw [textAtomRecords, List.filterMap_cons, parseLine_none_of_not_atom hal]
      exact ih h

theorem extractRecs_bounds :
    ∀ {ls : List String} {recs : List AtomRecord},
      extractRecs ls = .ok recs → ∀ r ∈ recs, boundsRec r := by
  intro ls
  induction ls with
  | nil =>
    intro recs h
    obtain rfl : ([] : List AtomRecord) = recs := by cases h; rfl
    intro r hr
    cases hr
  | cons l ls ih =>
    intro recs h
    rw [extractRecs] at h
    by_cases hal : isAtomLineB l
    · rw [if_pos hal] at h
      rcases hpl : parseLine l with _ | rec
      · rw [hpl] at h; cases h
      rw [hpl] at h
      rcases hrec : extractRecs ls with e | recs'
      · rw [hrec] at h; cases h
      rw [hrec] at h
      obtain rfl : rec :: recs' = recs := by cases h; rfl
      intro r hr
      rcases List.mem_cons.mp hr with rfl | hr2
      · exact parseAtomLineC_bounds hpl
      · exact ih hrec r hr2
    · rw [if_neg hal] at h
      exact ih h

theorem parsePDBLines_ok {ls : List String} {s : PDBStructure}
    (h : parsePDBLines ls = .ok s) :
    ∃ recs, extractRecs ls = .ok recs ∧ s = buildStructure recs ∧
      (∀ r ∈ recs, boundsRec r) ∧ textAtomRecords ls = recs := by
  rw [parsePDBLines] at h
  rcases he : extractRecs ls with e | recs
  · rw [he] at h; cases h
  · rw [he] at h
    obtain rfl : buildStructure recs = s := by cases h; rfl
    exact ⟨recs, rfl, rfl, extractRecs_bounds he, extractRecs_filterMap he⟩

theorem filterMap_some_id {α : Type} {f : α → Option α} :
    ∀ l : List α, (∀ x ∈ l, f x = some x) → l.filterMap f = l := by
  intro l
  induction l with
  | nil => intro _; rfl
  | cons a as ih =>
    intro h
    rw [List.filterMap_cons, h a (List.mem_cons_self a as)]
    exact congrArg (a :: ·) (ih fun x hx => h x (List.mem_cons_of_mem a hx))

theorem string_toList_mk (l : List Char) : (String.mk l).toList = l := rfl

theorem textAtomRecords_print {recs : List AtomRecord}
    (hb : ∀ r ∈ recs, boundsRec r) :
    textAtomRecords
      (recs.map (fun r => String.mk (printAtomLine r)) ++ ["END"]) = recs := by
  rw [textAtomRecords, List.filterMap_append,
    show List.filterMap parseLine ["END"] = [] from rfl, List.append_nil,
    List.filterMap_map]
  refine filterMap_some_id recs ?_
  intro r hr
  simp only [Function.comp_apply]
  rw [parseLine, string_toList_mk]
  exact parse_print (hb r hr)

end ExtractLemmas

/-- C8: round trip.  For every well-formed text (a text the parser
accepts), re-serializing the parsed structure yields a text carrying
exactly the same ATOM records — the same chain identifiers, residue
identifiers and atom coordinates, in the same order.  Coordinates are
modelled exactly in thousandths, the resolution of the fixed-point
`%8.3f` field, so formatting-level rounding preserves them exactly. -/
theorem C8_roundtrip (t : List String) (s : PDBStructure)
    (h : parsePDBLines t = .ok s) :
    textAtomRecords (pdb_to_string s) = textAtomRecords t := by
  obtain ⟨recs, he, rfl, hb, htx⟩ := parsePDBLines_ok h
  rw [pdb_to_string, flattenRecs_build, textAtomRecords_print hb, htx]

theorem C8_roundtrip_witness :
    parsePDBLines ["ATOM      1  CA  GLY A   1       1.000   2.000   3.000"] =
      .ok (buildStructure [⟨'A', 1, 1000, 2000, 3000⟩]) ∧
    textAtomRecords (pdb_to_string (buildStructure [⟨'A', 1, 1000, 2000, 3000⟩])) =
      textAtomRecords
        ["ATOM      1  CA  GLY A   1       1.000   2.000   3.000"] :=
  ⟨rfl, C8_roundtrip ["ATOM      1  CA  GLY A   1       1.000   2.000   3.000"]
    (buildStructure [⟨'A', 1, 1000, 2000, 3000⟩]) rfl⟩

/-- C7: `parse_pdb_file` checks first whether the input names an
existing file; if so the file contents are parsed, and only otherwise is
the input string itself parsed as raw text; in both cases the parser
output is returned. -/
theorem C7_dispatch (fs : String → Option (List String)) (input : String) :
    (∀ ls, fs input = some ls →
      parse_pdb_file fs input = parsePDBLines ls) ∧
    (fs input = none →
      parse_pdb_file fs input = parsePDBLines (strLines input)) := by
  constructor
  · intro ls h
    rw [parse_pdb_file, h]
  · intro h
    rw [parse_pdb_file, h]

theorem C7_dispatch_witness :
    parse_pdb_file (fun p => if p = "sample.pdb" then some ["END"] else none)
      "sample.pdb" = parsePDBLines ["END"] ∧
    parse_pdb_file (fun p => if p = "sample.pdb" then some ["END"] else none)
      "raw text" = parsePDBLines (strLines "raw text") :=
  ⟨(C7_dispatch (fun p => if p = "sample.pdb" then some ["END"] else none)
      "sample.pdb").1 ["END"] (by rw [if_pos rfl]),
   (C7_dispatch (fun p => if p = "sample.pdb" then some ["END"] else none)
      "raw text").2 (by rw [if_neg (by decide)])⟩

/-- C5 counterexample: HTTP status 204 is a 2xx success status, yet the
code raises, because it tests `status_code != 200`, not "non-2xx". -/
theorem C5_counterexample :
    ((200 ≤ 204 ∧ 204 < 300) ∧
      fetch_pdb_structure (fun _ => ⟨204, ["END"]⟩) "1ABC" =
        .error (.fetchError 204)) :=
  ⟨by decide, rfl⟩

/-- C5 (amended): `fetch_pdb_structure` issues the GET on the fixed URL
template keyed by the identifier, fails with the fetch error exactly
when the response status differs from 200 (so also on the other 2xx
statuses), and on status 200 forwards the body to the parser and
returns its result; on failure no structure is returned. -/
theorem C5_status_check (http : String → HttpResponse) (pdb_id : String) :
    (¬(http ("https://files.rcsb.org/download/" ++ pdb_id ++ ".pdb")).status
        = 200 →
      fetch_pdb_structure http pdb_id = .error (.fetchError
        (http ("https://files.rcsb.org/download/" ++ pdb_id ++ ".pdb")).status)) ∧
    ((http ("https://files.rcsb.org/download/" ++ pdb_id ++ ".pdb")).status
        = 200 →
      fetch_pdb_structure http pdb_id = parsePDBLines
        (http ("https://files.rcsb.org/download/" ++ pdb_id ++ ".pdb")).body) := by
  constructor
  · intro h
    simp only [fetch_pdb_structure]
    rw [if_pos h]
  · intro h
    simp only [fetch_pdb_structure]
    rw [if_neg (by rw [h]; exact fun hne => hne rfl)]

theorem C5_status_check_witness :
    fetch_pdb_structure (fun _ => ⟨404, []⟩) "XXXX" =
      .error (.fetchError 404) ∧
    fetch_pdb_structure (fun _ => ⟨200, ["END"]⟩) "1ABC" =
      parsePDBLines ["END"] :=
  ⟨(C5_status_check (fun _ => ⟨404, []⟩) "XXXX").1 (by decide),
   (C5_status_check (fun _ => ⟨200, ["END"]⟩) "1ABC").2 rfl⟩
